import Mathlib

/- Shallow embedding of the lcd-remote-app text renderer and scroll driver
   (src/main.py, src/text_renderer.py, src/waveshare_lcd.py).

   Strings are modelled as lists of Unicode scalar values (Lean Char);
   fonts as per-character pixel-width functions (the value PIL textbbox
   reports for that single character); Python float arithmetic on emoji
   widths, int((109 + 40) * (size / 109.0)), is modelled by exact natural
   floor division (109 + 40) * size / 109, which agrees with the float
   computation on all realistic integer sizes; PIL images are modelled as
   total pixel functions together with explicit width/height fields. -/

abbrev Str := List Char

/-- ASCII whitespace as recognised by Python str.split() and str.strip(). -/
def isWS (c : Char) : Bool :=
  c = ' ' || c = '\t' || c = '\n' || c = '\x0b' || c = '\x0c' || c = '\r'

/-- Python str.strip(): remove leading and trailing whitespace. -/
def strip (s : Str) : Str :=
  ((s.dropWhile isWS).reverse.dropWhile isWS).reverse

/-- Worker for splitWs; acc holds the current word reversed. -/
def splitWsAux : Str → Str → List Str
  | [], acc => if acc.isEmpty then [] else [acc.reverse]
  | c :: cs, acc =>
    if isWS c then
      (if acc.isEmpty then splitWsAux cs [] else acc.reverse :: splitWsAux cs [])
    else splitWsAux cs (c :: acc)

/-- Python str.split() with no separator: split on whitespace runs, dropping
the whitespace and empty pieces. -/
def splitWs (s : Str) : List Str := splitWsAux s []

/-- Python text.split(newline): split at every newline, keeping empty pieces. -/
def splitOnNl : Str → List Str
  | [] => [[]]
  | c :: cs =>
    if c = '\n' then [] :: splitOnNl cs
    else
      match splitOnNl cs with
      | [] => [[c]]
      | l :: ls => (c :: l) :: ls

/-- is_emoji_char (text_renderer.py): membership of the code point in the
fixed table of inclusive Unicode ranges. -/
def is_emoji_code (code : Nat) : Bool :=
  (0x1F600 ≤ code && code ≤ 0x1F64F) ||
  (0x1F300 ≤ code && code ≤ 0x1F5FF) ||
  (0x1F680 ≤ code && code ≤ 0x1F6FF) ||
  (0x1F1E0 ≤ code && code ≤ 0x1F1FF) ||
  (0x2600 ≤ code && code ≤ 0x26FF) ||
  (0x2700 ≤ code && code ≤ 0x27BF) ||
  (0xFE00 ≤ code && code ≤ 0xFE0F) ||
  (0x1F900 ≤ code && code ≤ 0x1F9FF) ||
  (0x1FA00 ≤ code && code ≤ 0x1FA6F) ||
  (0x1FA70 ≤ code && code ≤ 0x1FAFF) ||
  (0x2300 ≤ code && code ≤ 0x23FF) ||
  (0x203C ≤ code && code ≤ 0x3299)

def is_emoji_char (c : Char) : Bool := is_emoji_code c.toNat

/-- The code points skipped by measurement and rendering: variation
selectors U+FE00..U+FE0F and the zero-width joiner U+200D
(ord(char) in range(0xFE00, 0xFE10) or char == ZWJ). -/
def isIgnorableCode (code : Nat) : Bool :=
  (0xFE00 ≤ code && code < 0xFE10) || code == 0x200D

inductive GlyphClass where
  | Regular
  | Pictographic
  | Ignorable
deriving DecidableEq

/-- Effective per-code-point classification, in the check order used by
calculate_text_width and render_text_with_emoji: the ignorable test runs
first, then the emoji range table, else regular. -/
def classify (code : Nat) : GlyphClass :=
  if isIgnorableCode code then GlyphClass.Ignorable
  else if is_emoji_code code then GlyphClass.Pictographic
  else GlyphClass.Regular

/-- calculate_text_width (text_renderer.py): per-character width sum.
avail models whether get_emoji_font(109) succeeds; font c is the width
draw.textbbox reports for the single character c.  The emoji contribution
is the scaled padded bitmap size int((109 + 40) * (emoji_font_size / 109.0)). -/
def calculate_text_width (avail : Bool) (font : Char → Nat) (emoji_font_size : Nat) :
    Str → Nat
  | [] => 0
  | c :: rest =>
    if isIgnorableCode c.toNat then calculate_text_width avail font emoji_font_size rest
    else if avail && is_emoji_char c then
      (109 + 40) * emoji_font_size / 109 + calculate_text_width avail font emoji_font_size rest
    else font c + calculate_text_width avail font emoji_font_size rest

/-- Per-code-point width as claim C6 words it: an Ignorable code point
contributes 0; a Pictographic one contributes
floor((nativeEmojiSize + 2*padding) * fontSize / nativeEmojiSize)
when the emoji font is available; a Regular one contributes its glyph
bounding-box width from the font. -/
def spec_glyph_width (avail : Bool) (font : Char → Nat) (emoji_font_size : Nat)
    (c : Char) : Nat :=
  if isIgnorableCode c.toNat then 0
  else if avail && is_emoji_char c then (109 + 2 * 20) * emoji_font_size / 109
  else font c

/-- The horizontal pen position maintained by render_text_with_emoji
(text_renderer.py) in the branch where the emoji font is available:
starting from x, each ignorable code point is skipped, each emoji advances
by the scaled padded bitmap width int((109 + 20*2) * (emoji_font_size / 109.0)),
and each regular character by its bounding-box width. -/
def render_text_with_emoji_x (font : Char → Nat) (emoji_font_size : Nat) :
    Int → Str → Int
  | x, [] => x
  | x, c :: rest =>
    if isIgnorableCode c.toNat then render_text_with_emoji_x font emoji_font_size x rest
    else if is_emoji_char c then
      render_text_with_emoji_x font emoji_font_size
        (x + ((109 + 20 * 2) * emoji_font_size / 109 : Nat)) rest
    else render_text_with_emoji_x font emoji_font_size (x + font c) rest

/-- One character of the character-level splitting loop of
wrap_text_with_emoji, acting on the state (lines, char_line). -/
def charStep (avail : Bool) (font : Char → Nat) (efs max_width_px : Nat)
    (acc : List Str × Str) (ch : Char) : List Str × Str :=
  let test_char_line := acc.2 ++ [ch]
  if calculate_text_width avail font efs test_char_line ≤ max_width_px then
    (acc.1, test_char_line)
  else
    ((if acc.2.isEmpty then acc.1 else acc.1 ++ [acc.2]), [ch])

/-- Inner character-level loop of wrap_text_with_emoji: break an oversized
word one code point at a time, flushing a line whenever the next character
would push the buffer past max_width_px. -/
def charSplit (avail : Bool) (font : Char → Nat) (efs max_width_px : Nat)
    (lines : List Str) (word : Str) : List Str × Str :=
  word.foldl (charStep avail font efs max_width_px) (lines, [])

/-- Body of the word loop of wrap_text_with_emoji for a single word, acting
on the state (lines, current_line). -/
def wrapStep (avail : Bool) (font : Char → Nat) (efs max_width_px : Nat)
    (st : List Str × Str) (word : Str) : List Str × Str :=
  let test_line := st.2 ++ (if st.2.isEmpty then [] else [' ']) ++ word
  if calculate_text_width avail font efs test_line ≤ max_width_px then
    (st.1, test_line)
  else if st.2.isEmpty then
    charSplit avail font efs max_width_px st.1 word
  else if calculate_text_width avail font efs word ≤ max_width_px then
    (st.1 ++ [st.2], word)
  else
    charSplit avail font efs max_width_px (st.1 ++ [st.2]) word

/-- wrap_text_with_emoji (text_renderer.py): greedy word fill at pixel
granularity, with character-level splitting of oversized words; blank
input yields one empty line. -/
def wrap_text_with_emoji (avail : Bool) (font : Char → Nat)
    (max_width_px emoji_font_size : Nat) (text : Str) : List Str :=
  if (strip text).isEmpty then [[]]
  else
    let st := (splitWs text).foldl (wrapStep avail font emoji_font_size max_width_px) ([], [])
    let lines := if st.2.isEmpty then st.1 else st.1 ++ [st.2]
    if lines.isEmpty then [[]] else lines

/-- Rejoin a word list with single spaces, the way the wrapper builds its
lines (current_line + one space + word). -/
def joinSp : List Str → Str
  | [] => []
  | [w] => w
  | w :: v :: ws => w ++ ' ' :: joinSp (v :: ws)

/-- A word as splitWs produces it: nonempty and whitespace-free. -/
def wordOk (w : Str) : Prop := w ≠ [] ∧ ∀ c ∈ w, isWS c = false

/-- Shape invariant of every line the wrapper emits: a single-space join of
nonempty whitespace-free words that either fits the pixel budget or
consists of one single (possibly oversized) code point. -/
def lineOk (avail : Bool) (font : Char → Nat) (efs maxW : Nat) (L : Str) : Prop :=
  (∃ ws : List Str, ws ≠ [] ∧ (∀ w ∈ ws, wordOk w) ∧ L = joinSp ws) ∧
  (calculate_text_width avail font efs L ≤ maxW ∨ ∃ c, L = [c])

/-- Invariant of the character-splitting loop state. -/
def charStOk (avail : Bool) (font : Char → Nat) (efs maxW : Nat)
    (st : List Str × Str) : Prop :=
  (∀ L ∈ st.1, lineOk avail font efs maxW L) ∧
  (st.2 = [] ∨ (wordOk st.2 ∧
    (calculate_text_width avail font efs st.2 ≤ maxW ∨ ∃ c, st.2 = [c])))

/-- Invariant of the word-loop state of the wrapper. -/
def wrapStOk (avail : Bool) (font : Char → Nat) (efs maxW : Nat)
    (st : List Str × Str) : Prop :=
  (∀ L ∈ st.1, lineOk avail font efs maxW L) ∧
  (st.2 = [] ∨ lineOk avail font efs maxW st.2)

def TEXT_MARGIN_PX : Nat := 10

/-- One raw line's contribution to display_lines inside
create_scrollable_text_image: a blank raw line survives as one empty line,
any other raw line is pixel-wrapped. -/
def line_contribution (avail : Bool) (font : Char → Nat) (font_size max_width_px : Nat)
    (raw_line : Str) : List Str :=
  if (strip raw_line).isEmpty then [[]]
  else wrap_text_with_emoji avail font max_width_px font_size raw_line

/-- The display_lines list built by create_scrollable_text_image: split the
text on newlines and accumulate each raw line's contribution, wrapping at
display_width minus the margin on both sides. -/
def create_scrollable_display_lines (avail : Bool) (font : Char → Nat)
    (font_size display_width : Nat) (text : Str) : List Str :=
  (splitOnNl text).foldl
    (fun acc raw_line =>
      acc ++ line_contribution avail font font_size (display_width - 2 * TEXT_MARGIN_PX) raw_line)
    []

/-- A PIL image: a width, a height and a total pixel function (queries
outside the width x height rectangle are irrelevant to every claim). -/
structure PImage where
  width : Nat
  height : Nat
  pix : Int → Int → Int

/-- create_scroll_frame (text_renderer.py): crop the tall image at
y_position into a display_width x display_height frame; rows the crop does
not cover keep the background color.  The paste rectangles are exactly the
ones of the three Python branches. -/
def create_scroll_frame (full_image : PImage) (y_position : Int)
    (display_width display_height : Nat) (bg_color : Int) : PImage :=
  let total_text_height : Int := full_image.height
  if y_position < 0 then
    let src_height := min total_text_height (display_height + y_position)
    let dest_y := -y_position
    { width := display_width, height := display_height,
      pix := fun x y =>
        if 0 < src_height ∧ 0 ≤ x ∧ x < display_width ∧ dest_y ≤ y ∧ y < dest_y + src_height then
          full_image.pix x (y - dest_y)
        else bg_color }
  else if y_position + display_height ≤ total_text_height then
    { width := display_width, height := display_height,
      pix := fun x y =>
        if 0 ≤ x ∧ x < display_width ∧ 0 ≤ y ∧ y < display_height then
          full_image.pix x (y + y_position)
        else bg_color }
  else
    let src_height := total_text_height - y_position
    { width := display_width, height := display_height,
      pix := fun x y =>
        if 0 < src_height ∧ 0 ≤ x ∧ x < display_width ∧ 0 ≤ y ∧ y < src_height then
          full_image.pix x (y + y_position)
        else bg_color }

def DISPLAY_HEIGHT : Int := 240

def SCROLL_SPEED : Int := 3

/-- One iteration's offset update in scroll_text (main.py): add
SCROLL_SPEED, then reset to -DISPLAY_HEIGHT once the new offset reaches
the total text height. -/
def scrollStep (total_text_height y_position : Int) : Int :=
  let y2 := y_position + SCROLL_SPEED
  if total_text_height ≤ y2 then -DISPLAY_HEIGHT else y2

/-- The offset whose frame is presented at the n-th iteration of the
scroll loop; the loop variable starts at -DISPLAY_HEIGHT. -/
def scrollOffsets (total_text_height : Int) : Nat → Int
  | 0 => -DISPLAY_HEIGHT
  | n + 1 => scrollStep total_text_height (scrollOffsets total_text_height n)

inductive DisplayEv where
  | present (y : Int)
  | sleep
  | clear (color : String)
deriving DecidableEq

/-- Events of the first n uncancelled iterations of the scroll loop: every
iteration presents the frame at the current offset and then sleeps one
frame interval; the wrap-around reset gets no extra pause. -/
def scrollTrace (total_text_height : Int) : Nat → List DisplayEv
  | 0 => []
  | n + 1 =>
    scrollTrace total_text_height n ++
      [DisplayEv.present (scrollOffsets total_text_height n), DisplayEv.sleep]

/-- A scroll_text run whose task is cancelled during the sleep of iteration
cancelAt, counting iterations from the given starting offset: the
CancelledError handler clears with the literal color "#000000" (main.py
line 81), ignoring the session's bg_color parameter. -/
def scrollRun (total_text_height : Int) (bg_color : String) : Int → Nat → List DisplayEv
  | y, 0 => [DisplayEv.present y, DisplayEv.clear "#000000"]
  | y, n + 1 =>
    DisplayEv.present y :: DisplayEv.sleep ::
      scrollRun total_text_height bg_color (scrollStep total_text_height y) n

def separator_line : Str := List.replicate 28 '-'

/-- scroll_text (main.py) lines 38-39: the submitted text is surrounded by
a 28-dash separator line above and below. -/
def decorated_text (text : Str) : Str :=
  separator_line ++ '\n' :: (text ++ '\n' :: separator_line)

/-- Width table for the wrapping counterexample: one glyph wider than the
budget used there. -/
def cexFont : Char → Nat := fun c => if c = 'W' then 10 else 1

/-- Uniform one-pixel-wide width table for concrete witnesses. -/
def constFont : Char → Nat := fun _ => 1

/-- Concrete canvas for the frame-extraction witness. -/
def testCanvas : PImage :=
  { width := 320, height := 500, pix := fun x y => x + 1000 * y }

/- ------------------------------------------------------------------ -/
/- Helper lemmas.                                                      -/
/- ------------------------------------------------------------------ -/

lemma ctw_map_sum (avail : Bool) (font : Char → Nat) (efs : Nat) :
    ∀ text : Str,
      calculate_text_width avail font efs text =
        (text.map (spec_glyph_width avail font efs)).sum := by
  intro text
  induction text with
  | nil => rfl
  | cons c rest ih =>
    simp only [calculate_text_width, spec_glyph_width, List.map_cons, List.sum_cons]
    by_cases h1 : isIgnorableCode c.toNat
    · simp [h1, ih]
    · by_cases h2 : avail && is_emoji_char c
      · simp [h1, h2, ih]
      · simp [h1, h2, ih]

lemma ctw_append (avail : Bool) (font : Char → Nat) (efs : Nat) (s t : Str) :
    calculate_text_width avail font efs (s ++ t) =
      calculate_text_width avail font efs s + calculate_text_width avail font efs t := by
  simp [ctw_map_sum]

lemma ctw_single (avail : Bool) (font : Char → Nat) (efs : Nat) (c : Char) :
    calculate_text_width avail font efs [c] = spec_glyph_width avail font efs c := by
  simp [ctw_map_sum]

lemma ctw_le_of_append_right (avail : Bool) (font : Char → Nat) (efs : Nat) (s t : Str) :
    calculate_text_width avail font efs s ≤ calculate_text_width avail font efs (s ++ t) := by
  rw [ctw_append]; exact Nat.le_add_right _ _

/- ------------------------------------------------------------------ -/
/- Claim C6.                                                           -/
/- ------------------------------------------------------------------ -/

/-- Claim C6: calculate_text_width is the kerning-free sum of
per-code-point widths, where an ignorable code point contributes 0, a
pictographic code point contributes
floor((109 + 2*20) * fontSize / 109) when the emoji font is available,
and a regular code point contributes its glyph bounding-box width. -/
theorem calculate_text_width_eq_sum (avail : Bool) (font : Char → Nat) (efs : Nat)
    (text : Str) :
    calculate_text_width avail font efs text =
      (text.map (spec_glyph_width avail font efs)).sum :=
  ctw_map_sum avail font efs text

/- ------------------------------------------------------------------ -/
/- Claim C7.                                                           -/
/- ------------------------------------------------------------------ -/

/-- Claim C7 counterexample: the variation selector U+FE00 lies in the
Ignorable set and simultaneously inside the Pictographic range table
((0xFE00, 0xFE0F) is literally one of the ranges of is_emoji_char), so
the two raw sets are not disjoint. -/
theorem classification_overlap_cex :
    isIgnorableCode 0xFE00 = true ∧ is_emoji_code 0xFE00 = true := by decide

/-- Claim C7 amended: classification into Regular, Pictographic and
Ignorable is a pure total function of the code point, and it is exclusive
because the Ignorable check runs before the Pictographic range check;
the two underlying range sets themselves overlap on the variation
selectors (see the counterexample), with Ignorable taking precedence. -/
theorem classification_amended :
    ∀ code : Nat,
      (classify code = GlyphClass.Ignorable ∨ classify code = GlyphClass.Pictographic ∨
        classify code = GlyphClass.Regular) ∧
      (classify code = GlyphClass.Ignorable ↔ isIgnorableCode code = true) ∧
      (classify code = GlyphClass.Pictographic ↔
        (isIgnorableCode code = false ∧ is_emoji_code code = true)) ∧
      (classify code = GlyphClass.Regular ↔
        (isIgnorableCode code = false ∧ is_emoji_code code = false)) := by
  intro code
  unfold classify
  cases h1 : isIgnorableCode code <;> cases h2 : is_emoji_code code <;> simp [h1, h2]

/- ------------------------------------------------------------------ -/
/- Claim C4.                                                           -/
/- ------------------------------------------------------------------ -/

/-- Claim C4: with the emoji font available, the total horizontal advance
of render_text_with_emoji over a line (final pen x minus starting x)
equals calculate_text_width of that line at the same font and emoji font
size: layout and rendering use the same per-glyph widths. -/
theorem render_advance_eq_width (font : Char → Nat) (efs : Nat) (text : Str) (x : Int) :
    render_text_with_emoji_x font efs x text =
      x + (calculate_text_width true font efs text : Int) := by
  induction text generalizing x with
  | nil => simp [render_text_with_emoji_x, calculate_text_width]
  | cons c rest ih =>
    by_cases h1 : isIgnorableCode c.toNat
    · simp [render_text_with_emoji_x, calculate_text_width, h1, ih]
    · by_cases h2 : is_emoji_char c
      · simp only [render_text_with_emoji_x, calculate_text_width, h1, h2, Bool.true_and,
          if_false, if_true, ih]
        push_cast
        ring
      · simp only [render_text_with_emoji_x, calculate_text_width, h1, h2, Bool.true_and,
          if_false, ih]
        push_cast
        ring

/- ------------------------------------------------------------------ -/
/- Claim C1.                                                           -/
/- ------------------------------------------------------------------ -/

/-- Claim C1 counterexample: with a 300-pixel-tall canvas the loop's first
emitted offset is -240 = -DISPLAY_HEIGHT, not +displayHeight, and the
second emitted offset is larger than the first, so offsets are not
strictly decreasing. -/
theorem scroll_loop_cex :
    scrollOffsets 300 0 = -240 ∧ scrollOffsets 300 0 < scrollOffsets 300 1 ∧
      scrollOffsets 300 0 ≠ 240 := by decide

/-- Claim C1 amended: the loop starts at -DISPLAY_HEIGHT (canvas fully
below the viewport in the crop-offset convention), advances by the fixed
positive step SCROLL_SPEED so that emitted offsets are strictly
increasing between resets, resets to -DISPLAY_HEIGHT as soon as the
advanced offset reaches the canvas height (no padding term), and every
iteration - the one after a reset included - contributes exactly one
present and one uniform frame-interval sleep, with no extra pause; until
the first reset, iteration k sits exactly at -DISPLAY_HEIGHT +
SCROLL_SPEED * k, so every multiple of the step is visited in strictly
increasing order with no gaps larger than one step. -/
theorem scroll_loop_amended (total_text_height : Int) :
    scrollOffsets total_text_height 0 = -DISPLAY_HEIGHT ∧
    (∀ n : Nat, scrollOffsets total_text_height n + SCROLL_SPEED < total_text_height →
      scrollOffsets total_text_height (n + 1) =
        scrollOffsets total_text_height n + SCROLL_SPEED) ∧
    (∀ n : Nat, total_text_height ≤ scrollOffsets total_text_height n + SCROLL_SPEED →
      scrollOffsets total_text_height (n + 1) = -DISPLAY_HEIGHT) ∧
    (∀ k : Nat, -DISPLAY_HEIGHT + SCROLL_SPEED * (k : Int) < total_text_height →
      scrollOffsets total_text_height k = -DISPLAY_HEIGHT + SCROLL_SPEED * (k : Int)) ∧
    (∀ n : Nat, scrollTrace total_text_height (n + 1) =
      scrollTrace total_text_height n ++
        [DisplayEv.present (scrollOffsets total_text_height n), DisplayEv.sleep]) := by
  refine ⟨rfl, ?_, ?_, ?_, fun n => rfl⟩
  · intro n h
    simp only [scrollOffsets, scrollStep]
    rw [if_neg (by omega)]
  · intro n h
    simp only [scrollOffsets, scrollStep]
    rw [if_pos (by omega)]
  · intro k
    induction k with
    | zero => intro _; simp [scrollOffsets]
    | succ m ih =>
      intro h
      have hm : -DISPLAY_HEIGHT + SCROLL_SPEED * (m : Int) < total_text_height := by
        simp only [DISPLAY_HEIGHT, SCROLL_SPEED] at h ⊢
        push_cast at h ⊢
        omega
      have hv := ih hm
      simp only [scrollOffsets, scrollStep, hv]
      rw [if_neg (by
        simp only [DISPLAY_HEIGHT, SCROLL_SPEED] at h ⊢
        push_cast at h ⊢
        omega)]
      simp only [DISPLAY_HEIGHT, SCROLL_SPEED]
      push_cast
      ring

/-- Claim C1 amended, instantiated: at canvas height 300 the eighth
emitted offset is -240 + 3 * 7. -/
theorem scroll_loop_amended_witness :
    scrollOffsets 300 7 = -DISPLAY_HEIGHT + SCROLL_SPEED * ((7 : Nat) : Int) :=
  (scroll_loop_amended 300).2.2.2.1 7 (by norm_num [DISPLAY_HEIGHT, SCROLL_SPEED])

/- ------------------------------------------------------------------ -/
/- Claim C2.                                                           -/
/- ------------------------------------------------------------------ -/

/-- Claim C2 counterexample: a session started with background color
"#123456" and cancelled during the second sleep ends with a clear to the
literal "#000000"; no clear to the session's background color ever
happens. -/
theorem scroll_cancel_cex :
    scrollRun 100 "#123456" (-240) 1 =
      [DisplayEv.present (-240), DisplayEv.sleep, DisplayEv.present (-237),
        DisplayEv.clear "#000000"] ∧
    DisplayEv.clear "#123456" ∉ scrollRun 100 "#123456" (-240) 1 := by decide

/-- Claim C2 amended: once cancellation is requested, the task unwinds at
the next frame-interval suspension point: the run is a list of presents
and sleeps followed by exactly one clear, which is the last event (so no
frame is presented after it) and whose color is the hard-coded "#000000"
rather than the session's bg_color. -/
theorem scroll_cancel_amended (total_text_height : Int) (bg_color : String)
    (y : Int) (cancelAt : Nat) :
    ∃ p : List DisplayEv,
      scrollRun total_text_height bg_color y cancelAt = p ++ [DisplayEv.clear "#000000"] ∧
      ∀ e ∈ p, e = DisplayEv.sleep ∨ ∃ z, e = DisplayEv.present z := by
  induction cancelAt generalizing y with
  | zero =>
    refine ⟨[DisplayEv.present y], rfl, ?_⟩
    intro e he
    simp only [List.mem_singleton] at he
    exact Or.inr ⟨y, he⟩
  | succ n ih =>
    obtain ⟨p, hp, he⟩ := ih (scrollStep total_text_height y)
    refine ⟨DisplayEv.present y :: DisplayEv.sleep :: p, ?_, ?_⟩
    · simp [scrollRun, hp]
    · intro e hmem
      simp only [List.mem_cons] at hmem
      rcases hmem with h | h | h
      · exact Or.inr ⟨y, h⟩
      · exact Or.inl h
      · exact he e h

/- ------------------------------------------------------------------ -/
/- Claim C10.                                                          -/
/- ------------------------------------------------------------------ -/

lemma splitOnNl_ne_nil (s : Str) : splitOnNl s ≠ [] := by
  induction s with
  | nil => simp [splitOnNl]
  | cons c cs ih =>
    by_cases hc : c = '\n'
    · simp [splitOnNl, hc]
    · simp only [splitOnNl, if_neg hc]
      cases h : splitOnNl cs <;> simp

lemma splitOnNl_cons_ne (c : Char) (cs : Str) (hc : c ≠ '\n') :
    splitOnNl (c :: cs) = (c :: (splitOnNl cs).headI) :: (splitOnNl cs).tail := by
  simp only [splitOnNl, if_neg hc]
  cases h : splitOnNl cs with
  | nil => exact absurd h (splitOnNl_ne_nil cs)
  | cons l ls => simp

lemma splitOnNl_no_nl (l : Str) (h : '\n' ∉ l) : splitOnNl l = [l] := by
  induction l with
  | nil => rfl
  | cons c cs ih =>
    have hc : c ≠ '\n' := fun hc => h (hc ▸ List.mem_cons_self c cs)
    have hcs : '\n' ∉ cs := fun hm => h (List.mem_cons_of_mem c hm)
    rw [splitOnNl_cons_ne c cs hc, ih hcs]
    rfl

lemma splitOnNl_word_append (l s : Str) (h : '\n' ∉ l) :
    splitOnNl (l ++ '\n' :: s) = l :: splitOnNl s := by
  induction l with
  | nil => simp [splitOnNl]
  | cons c cs ih =>
    have hc : c ≠ '\n' := fun hc => h (hc ▸ List.mem_cons_self c cs)
    have hcs : '\n' ∉ cs := fun hm => h (List.mem_cons_of_mem c hm)
    rw [List.cons_append, splitOnNl_cons_ne c _ hc, ih hcs]
    rfl

lemma splitOnNl_tail_sep (sep : Str) (hsep : '\n' ∉ sep) :
    ∀ s : Str, ∃ mid, mid ≠ [] ∧ splitOnNl (s ++ '\n' :: sep) = mid ++ [sep] := by
  intro s
  induction s with
  | nil =>
    refine ⟨[[]], by simp, ?_⟩
    simp [splitOnNl, splitOnNl_no_nl sep hsep]
  | cons c cs ih =>
    obtain ⟨mid, hne, heq⟩ := ih
    by_cases hc : c = '\n'
    · subst hc
      exact ⟨[] :: mid, by simp, by simp [splitOnNl, heq]⟩
    · obtain ⟨x, mid', hm⟩ := List.exists_cons_of_ne_nil hne
      subst hm
      refine ⟨(c :: x) :: mid', by simp, ?_⟩
      rw [List.cons_append, splitOnNl_cons_ne c _ hc, heq]
      rfl

/-- Claim C10: scroll_text renders decorated text, not the submission
alone: a separator line of exactly 28 hyphens sits on its own line before
the first and after the last line of the user's text, so the raw line
list of every rendered document begins and ends with the 28-dash line. -/
theorem decorated_text_spec (text : Str) :
    separator_line = List.replicate 28 '-' ∧
    decorated_text text = separator_line ++ '\n' :: (text ++ '\n' :: separator_line) ∧
    ∃ mid, splitOnNl (decorated_text text) = separator_line :: (mid ++ [separator_line]) := by
  have hnl : '\n' ∉ separator_line := by decide
  refine ⟨rfl, rfl, ?_⟩
  obtain ⟨mid, _, heq⟩ := splitOnNl_tail_sep separator_line hnl text
  exact ⟨mid, by rw [decorated_text, splitOnNl_word_append _ _ hnl, heq]⟩

/- ------------------------------------------------------------------ -/
/- Claim C5.                                                           -/
/- ------------------------------------------------------------------ -/

/-- Claim C5: for every canvas (height 0 included) and every offset, the
extracted frame is exactly display_width x display_height; the three cases
(entering from below, fully covered, exiting past the top) are exhaustive
and pairwise disjoint; and in the fully-covered case the frame pixel at
(x, y) is the canvas pixel at (x, y + y_position), in particular the
top-left frame pixel is the canvas pixel at (0, y_position). -/
theorem create_scroll_frame_spec (full_image : PImage) (y_position : Int)
    (display_width display_height : Nat) (bg_color : Int) :
    ((create_scroll_frame full_image y_position display_width display_height bg_color).width =
        display_width ∧
      (create_scroll_frame full_image y_position display_width display_height bg_color).height =
        display_height) ∧
    (y_position < 0 ∨
      (0 ≤ y_position ∧ y_position + display_height ≤ (full_image.height : Int)) ∨
      (0 ≤ y_position ∧ (full_image.height : Int) < y_position + display_height)) ∧
    (¬ (y_position < 0 ∧ 0 ≤ y_position)) ∧
    (¬ (y_position + display_height ≤ (full_image.height : Int) ∧
        (full_image.height : Int) < y_position + display_height)) ∧
    (0 ≤ y_position → y_position + display_height ≤ (full_image.height : Int) →
      (∀ x y : Int, 0 ≤ x → x < display_width → 0 ≤ y → y < display_height →
        (create_scroll_frame full_image y_position display_width display_height bg_color).pix x y =
          full_image.pix x (y + y_position)) ∧
      (0 < display_width → 0 < display_height →
        (create_scroll_frame full_image y_position display_width display_height bg_color).pix 0 0 =
          full_image.pix 0 y_position)) := by
  refine ⟨?_, by omega, by omega, by omega, ?_⟩
  · unfold create_scroll_frame
    dsimp only
    split
    · exact ⟨rfl, rfl⟩
    · split
      · exact ⟨rfl, rfl⟩
      · exact ⟨rfl, rfl⟩
  · intro h0 hcov
    have hlt : ¬ y_position < 0 := by omega
    unfold create_scroll_frame
    dsimp only
    rw [if_neg hlt, if_pos hcov]
    constructor
    · intro x y hx hxw hy hyh
      dsimp only
      rw [if_pos ⟨hx, hxw, hy, hyh⟩]
    · intro hw hh
      dsimp only
      rw [if_pos ⟨le_refl 0, by exact_mod_cast hw, le_refl 0, by exact_mod_cast hh⟩]
      simp

/-- Claim C5, instantiated: the fully-covered crop of the concrete canvas
at offset 7 has its top-left pixel equal to the canvas pixel at (0, 7). -/
theorem create_scroll_frame_spec_witness :
    (create_scroll_frame testCanvas 7 320 240 0).pix 0 0 = testCanvas.pix 0 7 := by
  have h := (create_scroll_frame_spec testCanvas 7 320 240 0).2.2.2.2
    (by norm_num) (by norm_num [testCanvas])
  exact h.2 (by norm_num) (by norm_num)

/- ------------------------------------------------------------------ -/
/- Wrapping machinery: words, joins and the strip/split lemmas.        -/
/- ------------------------------------------------------------------ -/

lemma joinSp_cons (w : Str) (ws : List Str) (h : ws ≠ []) :
    joinSp (w :: ws) = w ++ ' ' :: joinSp ws := by
  cases ws with
  | nil => exact absurd rfl h
  | cons v vs => rfl

lemma joinSp_append_single (ws : List Str) (w : Str) (h : ws ≠ []) :
    joinSp (ws ++ [w]) = joinSp ws ++ ' ' :: w := by
  induction ws with
  | nil => exact absurd rfl h
  | cons v vs ih =>
    cases vs with
    | nil => rfl
    | cons u us =>
      rw [List.cons_append, joinSp_cons v ((u :: us) ++ [w]) (by simp),
        ih (by simp), joinSp_cons v (u :: us) (by simp)]
      simp

lemma splitWsAux_word (w : Str) (hw : ∀ c ∈ w, isWS c = false) :
    ∀ s acc, splitWsAux (w ++ s) acc = splitWsAux s (w.reverse ++ acc) := by
  induction w with
  | nil => intro s acc; simp
  | cons c cs ih =>
    intro s acc
    have hc : isWS c = false := hw c (List.mem_cons_self c cs)
    have hcs : ∀ x ∈ cs, isWS x = false := fun x hx => hw x (List.mem_cons_of_mem c hx)
    rw [List.cons_append]
    simp only [splitWsAux, hc, Bool.false_eq_true, if_false]
    rw [ih hcs s (c :: acc)]
    congr 1
    simp

lemma splitWs_word (w : Str) (hw : wordOk w) : splitWs w = [w] := by
  obtain ⟨hne, hfree⟩ := hw
  have h := splitWsAux_word w hfree [] []
  simp only [List.append_nil] at h
  rw [splitWs, h]
  simp only [splitWsAux]
  rw [if_neg (by simp [List.isEmpty_eq_false, hne]), List.reverse_reverse]

lemma splitWs_word_cons (w : Str) (hw : wordOk w) (s : Str) :
    splitWs (w ++ ' ' :: s) = w :: splitWs s := by
  obtain ⟨hne, hfree⟩ := hw
  have h := splitWsAux_word w hfree (' ' :: s) []
  rw [splitWs, h]
  simp only [List.append_nil, splitWsAux, show isWS ' ' = true from rfl, if_true]
  rw [if_neg (by simp [List.isEmpty_eq_false, hne]), List.reverse_reverse]
  rfl

lemma splitWs_joinSp (ws : List Str) (hne : ws ≠ []) (hok : ∀ w ∈ ws, wordOk w) :
    splitWs (joinSp ws) = ws := by
  induction ws with
  | nil => exact absurd rfl hne
  | cons w vs ih =>
    cases vs with
    | nil => exact splitWs_word w (hok w (List.mem_cons_self w []))
    | cons v us =>
      rw [joinSp_cons w (v :: us) (by simp),
        splitWs_word_cons w (hok w (List.mem_cons_self w _)),
        ih (by simp) (fun x hx => hok x (List.mem_cons_of_mem w hx))]

lemma splitWsAux_mem (s : Str) :
    ∀ acc, (∀ c ∈ acc, isWS c = false) → ∀ w ∈ splitWsAux s acc, wordOk w := by
  induction s with
  | nil =>
    intro acc hacc w hw
    simp only [splitWsAux] at hw
    by_cases h : acc.isEmpty
    · rw [if_pos h] at hw; simp at hw
    · rw [if_neg h] at hw
      simp only [List.mem_singleton] at hw
      subst hw
      have hne : acc ≠ [] := by simpa [List.isEmpty_eq_false] using h
      exact ⟨by simp [hne], fun c hc => hacc c (List.mem_reverse.mp hc)⟩
  | cons c cs ih =>
    intro acc hacc w hw
    simp only [splitWsAux] at hw
    cases hWS : isWS c with
    | true =>
      rw [if_pos (by rw [hWS])] at hw
      by_cases h : acc.isEmpty
      · rw [if_pos h] at hw
        exact ih [] (by simp) w hw
      · rw [if_neg h] at hw
        rcases List.mem_cons.mp hw with h1 | h1
        · subst h1
          have hne : acc ≠ [] := by simpa [List.isEmpty_eq_false] using h
          exact ⟨by simp [hne], fun x hx => hacc x (List.mem_reverse.mp hx)⟩
        · exact ih [] (by simp) w h1
    | false =>
      rw [if_neg (by rw [hWS]; simp)] at hw
      refine ih (c :: acc) ?_ w hw
      intro x hx
      rcases List.mem_cons.mp hx with h1 | h1
      · subst h1; exact hWS
      · exact hacc x h1

lemma splitWs_mem (s : Str) : ∀ w ∈ splitWs s, wordOk w :=
  splitWsAux_mem s [] (by simp)

lemma dropWhile_nil_mem (p : Char → Bool) :
    ∀ l : Str, List.dropWhile p l = [] → ∀ c ∈ l, p c = true := by
  intro l
  induction l with
  | nil => intro _ c hc; simp at hc
  | cons x xs ih =>
    intro h c hc
    cases hx : p x with
    | false => simp [List.dropWhile, hx] at h
    | true =>
      simp only [List.dropWhile, hx] at h
      rcases List.mem_cons.mp hc with h1 | h1
      · subst h1; exact hx
      · exact ih h c h1

lemma strip_nil_all_ws (s : Str) (h : strip s = []) : ∀ c ∈ s, isWS c = true := by
  unfold strip at h
  have h1 : (s.dropWhile isWS).reverse.dropWhile isWS = [] := by
    simpa using congrArg List.reverse h
  have h3 : ∀ c ∈ s.dropWhile isWS, isWS c = true := fun c hc =>
    dropWhile_nil_mem isWS _ h1 c (List.mem_reverse.mpr hc)
  intro c hc
  rw [← List.takeWhile_append_dropWhile isWS s] at hc
  rcases List.mem_append.mp hc with h4 | h4
  · exact List.mem_takeWhile_imp h4
  · exact h3 c h4

lemma strip_not_empty (s : Str) (c : Char) (hc : c ∈ s) (hw : isWS c = false) :
    (strip s).isEmpty = false := by
  cases h : (strip s).isEmpty with
  | false => rfl
  | true =>
    exfalso
    have hnil : strip s = [] := by simpa [List.isEmpty_iff] using h
    have := strip_nil_all_ws s hnil c hc
    rw [hw] at this
    exact Bool.false_ne_true this

lemma lineOk_single_word (avail : Bool) (font : Char → Nat) (efs maxW : Nat)
    (w : Str) (h1 : wordOk w)
    (h2 : calculate_text_width avail font efs w ≤ maxW ∨ ∃ c, w = [c]) :
    lineOk avail font efs maxW w :=
  ⟨⟨[w], by simp, by simpa using h1, rfl⟩, h2⟩

/- ------------------------------------------------------------------ -/
/- Fold invariants of the wrapper.                                     -/
/- ------------------------------------------------------------------ -/

lemma charStep_ok (avail : Bool) (font : Char → Nat) (efs maxW : Nat)
    (st : List Str × Str) (ch : Char) (hch : isWS ch = false)
    (h : charStOk avail font efs maxW st) :
    charStOk avail font efs maxW (charStep avail font efs maxW st ch) ∧
    (charStep avail font efs maxW st ch).2 ≠ [] := by
  obtain ⟨hlines, hcur⟩ := h
  unfold charStep
  dsimp only
  by_cases hfit : calculate_text_width avail font efs (st.2 ++ [ch]) ≤ maxW
  · rw [if_pos hfit]
    refine ⟨⟨hlines, Or.inr ⟨⟨by simp, ?_⟩, Or.inl hfit⟩⟩, by simp⟩
    intro c hcmem
    rcases List.mem_append.mp hcmem with h1 | h1
    · rcases hcur with h2 | h2
      · rw [h2] at h1; simp at h1
      · exact h2.1.2 c h1
    · simp only [List.mem_singleton] at h1
      subst h1; exact hch
  · rw [if_neg hfit]
    refine ⟨⟨?_, Or.inr ⟨⟨by simp, ?_⟩, Or.inr ⟨ch, rfl⟩⟩⟩, by simp⟩
    · intro L hL
      by_cases hem : st.2.isEmpty
      · rw [if_pos hem] at hL; exact hlines L hL
      · rw [if_neg hem] at hL
        rcases List.mem_append.mp hL with h1 | h1
        · exact hlines L h1
        · simp only [List.mem_singleton] at h1
          subst h1
          have hne : st.2 ≠ [] := by simpa [List.isEmpty_eq_false] using hem
          rcases hcur with h2 | h2
          · exact absurd h2 hne
          · exact lineOk_single_word avail font efs maxW st.2 h2.1 h2.2
    · intro c hcm
      simp only [List.mem_singleton] at hcm
      subst hcm; exact hch

lemma charFold_ok (avail : Bool) (font : Char → Nat) (efs maxW : Nat) (cs : Str) :
    ∀ st : List Str × Str, (∀ c ∈ cs, isWS c = false) →
      charStOk avail font efs maxW st →
      charStOk avail font efs maxW (cs.foldl (charStep avail font efs maxW) st) ∧
      ((cs ≠ [] ∨ st.2 ≠ []) → (cs.foldl (charStep avail font efs maxW) st).2 ≠ []) := by
  induction cs with
  | nil =>
    intro st _ h
    refine ⟨h, fun hor => ?_⟩
    rcases hor with h1 | h1
    · exact absurd rfl h1
    · exact h1
  | cons c cs ih =>
    intro st hfree h
    rw [List.foldl_cons]
    have hstep := charStep_ok avail font efs maxW st c (hfree c (List.mem_cons_self c cs)) h
    have hrest := ih (charStep avail font efs maxW st c)
      (fun x hx => hfree x (List.mem_cons_of_mem c hx)) hstep.1
    exact ⟨hrest.1, fun _ => hrest.2 (Or.inr hstep.2)⟩

lemma charSplit_ok (avail : Bool) (font : Char → Nat) (efs maxW : Nat)
    (lines : List Str) (word : Str) (hword : wordOk word)
    (hlines : ∀ L ∈ lines, lineOk avail font efs maxW L) :
    (∀ L ∈ (charSplit avail font efs maxW lines word).1, lineOk avail font efs maxW L) ∧
    lineOk avail font efs maxW (charSplit avail font efs maxW lines word).2 ∧
    (charSplit avail font efs maxW lines word).2 ≠ [] := by
  obtain ⟨hne, hfree⟩ := hword
  have h := charFold_ok avail font efs maxW word (lines, []) hfree ⟨hlines, Or.inl rfl⟩
  have h2 : (charSplit avail font efs maxW lines word).2 ≠ [] := h.2 (Or.inl hne)
  rcases h.1.2 with h3 | h3
  · exact absurd h3 h2
  · exact ⟨h.1.1, lineOk_single_word avail font efs maxW _ h3.1 h3.2, h2⟩

lemma wrapStep_ok (avail : Bool) (font : Char → Nat) (efs maxW : Nat)
    (st : List Str × Str) (word : Str) (hword : wordOk word)
    (h : wrapStOk avail font efs maxW st) :
    wrapStOk avail font efs maxW (wrapStep avail font efs maxW st word) ∧
    (wrapStep avail font efs maxW st word).2 ≠ [] := by
  obtain ⟨hlines, hcur⟩ := h
  unfold wrapStep
  dsimp only
  by_cases hfit :
      calculate_text_width avail font efs
        (st.2 ++ (if st.2.isEmpty then [] else [' ']) ++ word) ≤ maxW
  · rw [if_pos hfit]
    refine ⟨⟨hlines, Or.inr ⟨?_, Or.inl hfit⟩⟩, by simp [hword.1]⟩
    by_cases hem : st.2.isEmpty
    · have hnil : st.2 = [] := by simpa [List.isEmpty_iff] using hem
      exact ⟨[word], by simp, by simpa using hword, by rw [hnil]; rfl⟩
    · have hne2 : st.2 ≠ [] := by simpa [List.isEmpty_eq_false] using hem
      rcases hcur with h2 | h2
      · exact absurd h2 hne2
      · obtain ⟨⟨ws, hwsne, hwsok, hwseq⟩, _⟩ := h2
        refine ⟨ws ++ [word], by simp, ?_, ?_⟩
        · intro w hw
          rcases List.mem_append.mp hw with h3 | h3
          · exact hwsok w h3
          · simp only [List.mem_singleton] at h3
            subst h3; exact hword
        · rw [if_neg hem, hwseq, joinSp_append_single ws word hwsne]
          simp
  · rw [if_neg hfit]
    by_cases hem : st.2.isEmpty
    · rw [if_pos hem]
      have hcs := charSplit_ok avail font efs maxW st.1 word hword hlines
      exact ⟨⟨hcs.1, Or.inr hcs.2.1⟩, hcs.2.2⟩
    · rw [if_neg hem]
      have hne2 : st.2 ≠ [] := by simpa [List.isEmpty_eq_false] using hem
      rcases hcur with h2 | h2
      · exact absurd h2 hne2
      have hlines2 : ∀ L ∈ st.1 ++ [st.2], lineOk avail font efs maxW L := by
        intro L hL
        rcases List.mem_append.mp hL with h3 | h3
        · exact hlines L h3
        · simp only [List.mem_singleton] at h3
          subst h3; exact h2
      by_cases hwfit : calculate_text_width avail font efs word ≤ maxW
      · rw [if_pos hwfit]
        exact ⟨⟨hlines2,
          Or.inr (lineOk_single_word avail font efs maxW word hword (Or.inl hwfit))⟩,
          hword.1⟩
      · rw [if_neg hwfit]
        have hcs := charSplit_ok avail font efs maxW (st.1 ++ [st.2]) word hword hlines2
        exact ⟨⟨hcs.1, Or.inr hcs.2.1⟩, hcs.2.2⟩

lemma wrapFold_ok (avail : Bool) (font : Char → Nat) (efs maxW : Nat) (ws : List Str) :
    ∀ st : List Str × Str, (∀ w ∈ ws, wordOk w) →
      wrapStOk avail font efs maxW st →
      wrapStOk avail font efs maxW (ws.foldl (wrapStep avail font efs maxW) st) ∧
      ((ws ≠ [] ∨ st.2 ≠ []) → (ws.foldl (wrapStep avail font efs maxW) st).2 ≠ []) := by
  induction ws with
  | nil =>
    intro st _ h
    refine ⟨h, fun hor => ?_⟩
    rcases hor with h1 | h1
    · exact absurd rfl h1
    · exact h1
  | cons w ws ih =>
    intro st hok h
    rw [List.foldl_cons]
    have hstep := wrapStep_ok avail font efs maxW st w (hok w (List.mem_cons_self w ws)) h
    have hrest := ih (wrapStep avail font efs maxW st w)
      (fun x hx => hok x (List.mem_cons_of_mem w hx)) hstep.1
    exact ⟨hrest.1, fun _ => hrest.2 (Or.inr hstep.2)⟩

lemma wrap_lines_shape (avail : Bool) (font : Char → Nat) (efs maxW : Nat) (text : Str) :
    ∀ L ∈ wrap_text_with_emoji avail font maxW efs text,
      L = [] ∨ lineOk avail font efs maxW L := by
  intro L hL
  unfold wrap_text_with_emoji at hL
  by_cases hstrip : (strip text).isEmpty
  · rw [if_pos hstrip] at hL
    simp only [List.mem_singleton] at hL
    exact Or.inl hL
  · rw [if_neg hstrip] at hL
    dsimp only at hL
    have h := wrapFold_ok avail font efs maxW (splitWs text) ([], [])
      (splitWs_mem text) ⟨by simp, Or.inl rfl⟩
    set st := (splitWs text).foldl (wrapStep avail font efs maxW) ([], []) with hst
    by_cases hem : st.2.isEmpty
    · rw [if_pos hem] at hL
      by_cases hLe : st.1.isEmpty
      · rw [if_pos hLe] at hL
        simp only [List.mem_singleton] at hL
        exact Or.inl hL
      · rw [if_neg hLe] at hL
        exact Or.inr (h.1.1 L hL)
    · rw [if_neg hem] at hL
      rw [if_neg (by simp)] at hL
      rcases List.mem_append.mp hL with h1 | h1
      · exact Or.inr (h.1.1 L h1)
      · simp only [List.mem_singleton] at h1
        subst h1
        have hne : st.2 ≠ [] := by simpa [List.isEmpty_eq_false] using hem
        rcases h.1.2 with h2 | h2
        · exact absurd h2 hne
        · exact Or.inr h2

/- ------------------------------------------------------------------ -/
/- Claim C3.                                                           -/
/- ------------------------------------------------------------------ -/

/-- Claim C3 counterexample: with a glyph of width 10 and a budget of 5
pixels, wrapping the one-character string produces the line itself, whose
measured width 10 exceeds the budget: character-level splitting cannot
shrink a single oversized code point, so not every produced line satisfies
the width bound. -/
theorem wrap_width_cex :
    wrap_text_with_emoji false cexFont 5 28 ['W'] = [['W']] ∧
    calculate_text_width false cexFont 28 ['W'] = 10 ∧ ¬ (10 ≤ 5) := by decide

/-- Claim C3 amended: if every single code point measures at most
maxWidthPx, then every line wrap_text_with_emoji produces - lines from
character-level splitting of oversized tokens included - measures at most
maxWidthPx, the comparison being the inclusive one. -/
theorem wrap_width_amended (avail : Bool) (font : Char → Nat) (efs maxW : Nat)
    (hchar : ∀ c : Char, calculate_text_width avail font efs [c] ≤ maxW)
    (text : Str) :
    ∀ L ∈ wrap_text_with_emoji avail font maxW efs text,
      calculate_text_width avail font efs L ≤ maxW := by
  intro L hL
  rcases wrap_lines_shape avail font efs maxW text L hL with h | h
  · subst h
    simp [calculate_text_width]
  · rcases h.2 with h2 | ⟨c, h2⟩
    · exact h2
    · subst h2; exact hchar c

/-- Claim C3 amended, instantiated at a width-1 font with budget 5. -/
theorem wrap_width_amended_witness :
    calculate_text_width false constFont 28 ['a', ' ', 'b'] ≤ 5 := by
  refine wrap_width_amended false constFont 28 5 ?_ ['a', ' ', 'b'] ['a', ' ', 'b'] ?_
  · intro c
    by_cases h1 : isIgnorableCode c.toNat
    · simp [calculate_text_width, h1]
    · simp [calculate_text_width, h1, constFont]
  · decide

/- ------------------------------------------------------------------ -/
/- Greedy acceptance and re-wrapping.                                  -/
/- ------------------------------------------------------------------ -/

lemma wrapFold_accept (avail : Bool) (font : Char → Nat) (efs maxW : Nat)
    (ws : List Str) :
    ∀ (Ls : List Str) (cur : Str), cur ≠ [] → ws ≠ [] →
      calculate_text_width avail font efs (cur ++ ' ' :: joinSp ws) ≤ maxW →
      ws.foldl (wrapStep avail font efs maxW) (Ls, cur) = (Ls, cur ++ ' ' :: joinSp ws) := by
  induction ws with
  | nil => intro Ls cur _ h _; exact absurd rfl h
  | cons v vs ih =>
    intro Ls cur hcur _ hwid
    have hcurE : cur.isEmpty = false := by rw [List.isEmpty_eq_false]; exact hcur
    have hv : calculate_text_width avail font efs (cur ++ ' ' :: v) ≤ maxW := by
      cases vs with
      | nil => simpa [joinSp] using hwid
      | cons u us =>
        refine le_trans ?_ hwid
        rw [joinSp_cons v (u :: us) (by simp)]
        rw [show cur ++ ' ' :: (v ++ ' ' :: joinSp (u :: us)) =
          (cur ++ ' ' :: v) ++ (' ' :: joinSp (u :: us)) from by simp]
        exact ctw_le_of_append_right avail font efs _ _
    have hstep : wrapStep avail font efs maxW (Ls, cur) v = (Ls, cur ++ ' ' :: v) := by
      unfold wrapStep
      dsimp only
      rw [hcurE]
      simp only [Bool.false_eq_true, if_false]
      rw [if_pos (by simpa using hv)]
      simp
    cases vs with
    | nil =>
      rw [List.foldl_cons, hstep, List.foldl_nil]
      rfl
    | cons u us =>
      have hassoc : (cur ++ ' ' :: v) ++ ' ' :: joinSp (u :: us) =
          cur ++ ' ' :: joinSp (v :: u :: us) := by
        rw [joinSp_cons v (u :: us) (by simp)]
        simp
      rw [List.foldl_cons, hstep,
        ih Ls (cur ++ ' ' :: v) (by simp) (by simp) (by rw [hassoc]; exact hwid), hassoc]

lemma wrapFold_accept_first (avail : Bool) (font : Char → Nat) (efs maxW : Nat)
    (ws : List Str) (hne : ws ≠ []) (hok : ∀ w ∈ ws, wordOk w)
    (hwid : calculate_text_width avail font efs (joinSp ws) ≤ maxW) (Ls : List Str) :
    ws.foldl (wrapStep avail font efs maxW) (Ls, []) = (Ls, joinSp ws) := by
  cases ws with
  | nil => exact absurd rfl hne
  | cons v vs =>
    have hv : calculate_text_width avail font efs v ≤ maxW := by
      cases vs with
      | nil => simpa [joinSp] using hwid
      | cons u us =>
        refine le_trans ?_ hwid
        rw [joinSp_cons v (u :: us) (by simp)]
        exact ctw_le_of_append_right avail font efs v _
    have hstep : wrapStep avail font efs maxW (Ls, []) v = (Ls, v) := by
      unfold wrapStep
      simp only [List.isEmpty_nil, if_true, List.nil_append]
      rw [if_pos hv]
    cases vs with
    | nil =>
      rw [List.foldl_cons, hstep, List.foldl_nil]
      rfl
    | cons u us =>
      have hassoc : v ++ ' ' :: joinSp (u :: us) = joinSp (v :: u :: us) :=
        (joinSp_cons v (u :: us) (by simp)).symm
      rw [List.foldl_cons, hstep,
        wrapFold_accept avail font efs maxW (u :: us) Ls v (hok v (by simp)).1 (by simp)
          (by rw [hassoc]; exact hwid), hassoc]

lemma rewrap_self (avail : Bool) (font : Char → Nat) (efs maxW : Nat) (L : Str)
    (h : lineOk avail font efs maxW L) :
    wrap_text_with_emoji avail font maxW efs L = [L] := by
  obtain ⟨⟨ws, hne, hok, heq⟩, hwid⟩ := h
  obtain ⟨w0, ws', rfl⟩ := List.exists_cons_of_ne_nil hne
  have hw0 : wordOk w0 := hok w0 (by simp)
  obtain ⟨c0, w0', hw0eq⟩ := List.exists_cons_of_ne_nil hw0.1
  have hc0w : c0 ∈ w0 := by rw [hw0eq]; simp
  have hc0L : c0 ∈ L := by
    rw [heq]
    cases ws' with
    | nil => simpa [joinSp] using hc0w
    | cons v vs => rw [joinSp_cons _ _ (by simp)]; exact List.mem_append_left _ hc0w
  have hLne : L ≠ [] := List.ne_nil_of_mem hc0L
  have hstrip : (strip L).isEmpty = false := strip_not_empty L c0 hc0L (hw0.2 c0 hc0w)
  have hsplit : splitWs L = w0 :: ws' := by
    rw [heq]; exact splitWs_joinSp _ hne hok
  rcases hwid with hfit | ⟨c, hLc⟩
  · unfold wrap_text_with_emoji
    rw [if_neg (by simp [hstrip])]
    dsimp only
    rw [hsplit, wrapFold_accept_first avail font efs maxW (w0 :: ws') (by simp) hok
      (by rw [← heq]; exact hfit) []]
    have hjE : (joinSp (w0 :: ws')).isEmpty = false := by
      rw [List.isEmpty_eq_false, ← heq]; exact hLne
    simp [hjE, ← heq, hLne]
  · have hcw : isWS c = false := by
      have hc0ws := hw0.2 c0 hc0w
      have hc0c : c0 = c := by
        have : c0 ∈ [c] := hLc ▸ hc0L
        simpa using this
      rwa [hc0c] at hc0ws
    subst hLc
    have hsplitc : splitWs [c] = [[c]] :=
      splitWs_word [c] ⟨by simp, by
        intro x hx
        simp only [List.mem_singleton] at hx
        subst hx; exact hcw⟩
    unfold wrap_text_with_emoji
    rw [if_neg (by simp [hstrip])]
    dsimp only
    rw [hsplitc, List.foldl_cons, List.foldl_nil]
    by_cases hcf : calculate_text_width avail font efs [c] ≤ maxW
    · have hstep : wrapStep avail font efs maxW ([], []) [c] = ([], [c]) := by
        unfold wrapStep
        simp only [List.isEmpty_nil, if_true, List.nil_append]
        rw [if_pos hcf]
      rw [hstep]
      simp
    · have hstep : wrapStep avail font efs maxW ([], []) [c] = ([], [c]) := by
        unfold wrapStep
        simp only [List.isEmpty_nil, if_true, List.nil_append]
        rw [if_neg hcf]
        unfold charSplit charStep
        simp only [List.foldl_cons, List.foldl_nil, List.nil_append]
        rw [if_neg hcf]
        simp
      rw [hstep]
      simp

/- ------------------------------------------------------------------ -/
/- Claim C8.                                                           -/
/- ------------------------------------------------------------------ -/

/-- Claim C8: wrapping is idempotent; every line the wrapper emits, fed
back as an input line with the same font and budget, wraps to exactly
itself, so mapping the wrapper over its own output reproduces the same
sequence of lines. -/
theorem wrap_idempotent (avail : Bool) (font : Char → Nat) (efs maxW : Nat)
    (text : Str) :
    (wrap_text_with_emoji avail font maxW efs text).map
        (wrap_text_with_emoji avail font maxW efs) =
      (wrap_text_with_emoji avail font maxW efs text).map (fun L => [L]) ∧
    ∀ L ∈ wrap_text_with_emoji avail font maxW efs text,
      wrap_text_with_emoji avail font maxW efs L = [L] := by
  have hmain : ∀ L ∈ wrap_text_with_emoji avail font maxW efs text,
      wrap_text_with_emoji avail font maxW efs L = [L] := by
    intro L hL
    rcases wrap_lines_shape avail font efs maxW text L hL with h | h
    · subst h; rfl
    · exact rewrap_self avail font efs maxW L h
  exact ⟨List.map_congr_left hmain, hmain⟩

/-- Claim C8, instantiated: the single line produced for a two-word input
wraps back to itself alone. -/
theorem wrap_idempotent_witness :
    wrap_text_with_emoji false constFont 5 28 ['a', ' ', 'b'] = [['a', ' ', 'b']] :=
  (wrap_idempotent false constFont 28 5 ['a', ' ', 'b']).2 ['a', ' ', 'b'] (by decide)

/- ------------------------------------------------------------------ -/
/- Claim C9.                                                           -/
/- ------------------------------------------------------------------ -/

lemma ctw_single_plain (avail : Bool) (font : Char → Nat) (efs : Nat) (c : Char)
    (hig : isIgnorableCode c.toNat = false) (hem : is_emoji_char c = false) :
    calculate_text_width avail font efs [c] = font c := by
  simp [calculate_text_width, hig, hem]

lemma wrap_single_plain (avail : Bool) (font : Char → Nat) (efs maxW : Nat)
    (c : Char) (hc : isWS c = false)
    (hfit : calculate_text_width avail font efs [c] ≤ maxW) :
    wrap_text_with_emoji avail font maxW efs [c] = [[c]] := by
  have hstrip : (strip [c]).isEmpty = false :=
    strip_not_empty [c] c (List.mem_singleton.mpr rfl) hc
  have hsw : splitWs [c] = [[c]] :=
    splitWs_word [c] ⟨by simp, by
      intro x hx
      simp only [List.mem_singleton] at hx
      subst hx; exact hc⟩
  unfold wrap_text_with_emoji
  rw [if_neg (by simp [hstrip])]
  dsimp only
  rw [hsw, List.foldl_cons, List.foldl_nil]
  have hstep : wrapStep avail font efs maxW ([], []) [c] = ([], [c]) := by
    unfold wrapStep
    simp only [List.isEmpty_nil, if_true, List.nil_append]
    rw [if_pos hfit]
  rw [hstep]
  simp

/-- Claim C9: a blank (empty or whitespace-only) raw line contributes
exactly one empty display line, and the three raw lines of the input
text a-newline-newline-b, wrapped with a budget wide enough for each
letter, give exactly the display lines a, empty, b in that order. -/
theorem blank_lines_preserved (avail : Bool) (font : Char → Nat)
    (font_size display_width : Nat)
    (ha : font 'a' ≤ display_width - 2 * TEXT_MARGIN_PX)
    (hb : font 'b' ≤ display_width - 2 * TEXT_MARGIN_PX) :
    (∀ raw_line : Str, (strip raw_line).isEmpty = true →
      line_contribution avail font font_size (display_width - 2 * TEXT_MARGIN_PX)
        raw_line = [[]]) ∧
    create_scrollable_display_lines avail font font_size display_width
      ['a', '\n', '\n', 'b'] = [['a'], [], ['b']] := by
  constructor
  · intro rl h
    unfold line_contribution
    rw [if_pos h]
  · have hsplit : splitOnNl ['a', '\n', '\n', 'b'] = [['a'], [], ['b']] := by decide
    unfold create_scrollable_display_lines
    rw [hsplit]
    simp only [List.foldl_cons, List.foldl_nil]
    have hca : line_contribution avail font font_size
        (display_width - 2 * TEXT_MARGIN_PX) ['a'] = [['a']] := by
      unfold line_contribution
      rw [if_neg (by simp [strip_not_empty ['a'] 'a' (by simp) (by decide)])]
      exact wrap_single_plain avail font font_size _ 'a' (by decide)
        (by rw [ctw_single_plain avail font font_size 'a' (by decide) (by decide)]; exact ha)
    have hcb : line_contribution avail font font_size
        (display_width - 2 * TEXT_MARGIN_PX) ['b'] = [['b']] := by
      unfold line_contribution
      rw [if_neg (by simp [strip_not_empty ['b'] 'b' (by simp) (by decide)])]
      exact wrap_single_plain avail font font_size _ 'b' (by decide)
        (by rw [ctw_single_plain avail font font_size 'b' (by decide) (by decide)]; exact hb)
    have hce : line_contribution avail font font_size
        (display_width - 2 * TEXT_MARGIN_PX) [] = [[]] := by
      unfold line_contribution
      rfl
    rw [hca, hce, hcb]
    rfl

/-- Claim C9, instantiated at the width-1 font and the 320-pixel display. -/
theorem blank_lines_preserved_witness :
    create_scrollable_display_lines false constFont 28 320 ['a', '\n', '\n', 'b'] =
      [['a'], [], ['b']] :=
  (blank_lines_preserved false constFont 28 320 (by decide) (by decide)).2
